import Mathlib

/-!
Verification development for `vox_updated.py`, a cinema-listing scraper.

The Python source is shallowly embedded as follows:

* Parsed HTML documents (the result of `BeautifulSoup(html, "html.parser")`)
  are modelled by the tree type `Node` below; an element node carries its tag
  name, its list of CSS classes (BeautifulSoup's multi-valued `class`
  attribute), its remaining attributes, and its children in document order.
  The embedding starts from the parsed tree: BeautifulSoup's HTML
  tokenizer itself is out of scope, the extraction logic that walks the
  soup is embedded faithfully.
* Python `dict`s (built by repeated `d[k] = v` assignment) are modelled by
  association lists together with `insertA`, which mirrors CPython's
  insertion-order semantics: an existing key keeps its position and gets the
  new value, a new key is appended at the end.
* `datetime` values are modelled by their civil fields `(year, month, day)`;
  `datetime.strptime(s, "%Y%m%d")` yields a valid civil date, and
  `+ timedelta(days=i)` is ordinal arithmetic (`toOrd`/`fromOrd` below are
  the standard proleptic-Gregorian conversions, with day 0 = 1970-01-01).
  Python restricts years to 1..9999; theorems about date ranges carry the
  corresponding ordinal-window hypotheses.
* `requests.get`/`fetch_page` and the output-file write are modelled by
  oracle functions returning `Except`, an exception being the `.error`
  case.  Character classes of the time regex are modelled over ASCII.
-/

namespace VoxScrape

/-! ## Parsed HTML trees -/

mutual

inductive Node where
  | text (s : String)
  | elem (tag : String) (classes : List String) (attrs : List (String × String))
      (children : NodeList)

inductive NodeList where
  | nil
  | cons (head : Node) (tail : NodeList)

end

/-- Build a `NodeList` from a `List Node` (convenience for examples). -/
def nodesOf : List Node → NodeList
  | [] => .nil
  | n :: ns => .cons n (nodesOf ns)

/-- The children of a node as a plain list. -/
def childList : NodeList → List Node
  | .nil => []
  | .cons n ns => n :: childList ns

/-- Direct children of a node (empty for a text node). -/
def directChildren : Node → List Node
  | .text _ => []
  | .elem _ _ _ cs => childList cs

mutual

/-- All text fragments below a node, in document order
(BeautifulSoup's `strings`). -/
def Node.strings : Node → List String
  | .text s => [s]
  | .elem _ _ _ cs => cs.stringsAll

/-- Text fragments of a whole forest, in document order. -/
def NodeList.stringsAll : NodeList → List String
  | .nil => []
  | .cons n ns => n.strings ++ ns.stringsAll

end

/-- Python's `str.strip()` (ASCII whitespace). -/
def pyStrip (s : String) : String :=
  ⟨((s.data.dropWhile Char.isWhitespace).reverse.dropWhile Char.isWhitespace).reverse⟩

/-- `tag.get_text(sep, strip=True)`: every text fragment is stripped,
whitespace-only fragments are dropped, the rest are joined with `sep`. -/
def getText (sep : String) (n : Node) : String :=
  String.intercalate sep (((Node.strings n).map pyStrip).filter (fun s => s ≠ ""))

/-- `tag.get(key, "")` for non-`class` attributes: attribute lookup with
default `""` (always the default on a text node). -/
def attrD (n : Node) (key : String) : String :=
  match n with
  | .text _ => ""
  | .elem _ _ attrs _ => ((attrs.lookup key).getD "")

/-- Does a node match a tag-name filter (`soup.find_all("h3")` etc.)?
Text nodes never match. -/
def isTag (tag : String) (n : Node) : Bool :=
  match n with
  | .text _ => false
  | .elem t _ _ _ => t == tag

/-- Does a node match a tag name plus a `class_=` filter?  BeautifulSoup's
`class_` filter matches when the sought class is one of the element's
classes. -/
def isTagClass (tag cls : String) (n : Node) : Bool :=
  match n with
  | .text _ => false
  | .elem t cs _ _ => t == tag && cs.contains cls

mutual

/-- All descendants of a node (not the node itself) in document order,
each paired with its following siblings — the data `find_all` and
`find_next_sibling` need. -/
def Node.subWithFollow : Node → List (Node × List Node)
  | .text _ => []
  | .elem _ _ _ cs => cs.withFollow

/-- All nodes of a forest (and their descendants) in document order,
each paired with its following siblings. -/
def NodeList.withFollow : NodeList → List (Node × List Node)
  | .nil => []
  | .cons n ns => (n, childList ns) :: (n.subWithFollow ++ ns.withFollow)

end

/-- All descendants of a node in document order (`find_all` universe). -/
def descendants (n : Node) : List Node :=
  (Node.subWithFollow n).map Prod.fst

/-- `tag.find_all(filter)`: matching descendants in document order. -/
def findAll (p : Node → Bool) (n : Node) : List Node :=
  (descendants n).filter p

/-- `tag.find(filter)`: the first matching descendant, if any. -/
def findNode (p : Node → Bool) (n : Node) : Option Node :=
  (findAll p n).head?

/-- BeautifulSoup's `Tag.string`: a sole text child gives its content, a
sole element child recurses, anything else gives `None`. -/
def strOpt : Node → Option String
  | .text s => some s
  | .elem _ _ _ (.cons c .nil) => strOpt c
  | .elem _ _ _ _ => none

/-! ## Python dicts as insertion-ordered association lists -/

/-- `d[k] = v` on a Python dict: an existing key keeps its position and is
remapped, a fresh key is appended at the end. -/
def insertA {α : Type} (k : String) (v : α) : List (String × α) → List (String × α)
  | [] => [(k, v)]
  | (k', v') :: rest => if k' = k then (k, v) :: rest else (k', v') :: insertA k v rest

/-- `d.get(k)`: the value at the first (hence unique, for dict-built lists)
occurrence of a key. -/
def lookupA {α : Type} (k : String) : List (String × α) → Option α
  | [] => none
  | (k', v) :: rest => if k' = k then some v else lookupA k rest

/-- Build a dict by inserting the pairs of a list in order. -/
def dictFold {α : Type} (l : List (String × α)) : List (String × α) :=
  l.foldl (fun acc kv => insertA kv.1 kv.2 acc) []

/-- The value attached to the LAST occurrence of a key in a pair list. -/
def lastAssoc {α : Type} (k : String) (l : List (String × α)) : Option α :=
  lookupA k l.reverse

theorem insertA_keys {α : Type} (k : String) (v : α) (l : List (String × α)) :
    (insertA k v l).map Prod.fst =
      if k ∈ l.map Prod.fst then l.map Prod.fst else l.map Prod.fst ++ [k] := by
  induction l with
  | nil => simp [insertA]
  | cons hd tl ih =>
    by_cases hk : hd.1 = k
    · simp [insertA, hk]
    · have hne : k ≠ hd.1 := fun h => hk h.symm
      by_cases hmem : k ∈ tl.map Prod.fst
      · simp [insertA, hk, hne, hmem, ih]
      · simp [insertA, hk, hne, hmem, ih]

theorem insertA_keys_nodup {α : Type} (k : String) (v : α) (l : List (String × α))
    (h : (l.map Prod.fst).Nodup) : ((insertA k v l).map Prod.fst).Nodup := by
  rw [insertA_keys]
  by_cases hmem : k ∈ l.map Prod.fst
  · simpa [hmem] using h
  · simp only [if_neg hmem, List.nodup_append, List.nodup_cons, List.nodup_nil]
    refine ⟨h, by simp, ?_⟩
    intro a ha
    simp only [List.mem_singleton]
    intro hak
    exact hmem (hak ▸ ha)

theorem lookupA_insertA {α : Type} (k k' : String) (v : α) (l : List (String × α)) :
    lookupA k' (insertA k v l) = if k = k' then some v else lookupA k' l := by
  induction l with
  | nil => simp [insertA, lookupA]
  | cons hd tl ih =>
    by_cases hk : hd.1 = k
    · by_cases hk' : k = k'
      · simp [insertA, lookupA, hk, hk']
      · have h2 : ¬ hd.1 = k' := fun h => hk' (hk.symm.trans h)
        simp [insertA, lookupA, hk, hk', h2]
    · by_cases hh : hd.1 = k'
      · have h2 : ¬ k = k' := fun h => hk (h ▸ hh)
        have h3 : ¬ k' = k := fun h => h2 h.symm
        simp [insertA, lookupA, hk, hh, h2, h3]
      · simp [insertA, lookupA, hk, hh, ih]

theorem insertA_fresh {α : Type} (k : String) (v : α) (l : List (String × α))
    (h : k ∉ l.map Prod.fst) : insertA k v l = l ++ [(k, v)] := by
  induction l with
  | nil => simp [insertA]
  | cons hd tl ih =>
    simp only [List.map_cons, List.mem_cons] at h
    push_neg at h
    have hne : ¬ hd.1 = k := fun he => h.1 he.symm
    simp only [insertA, if_neg hne]
    rw [ih h.2]
    simp

theorem insertA_mem {α : Type} (k : String) (v : α) (l : List (String × α))
    (p : String × α) (h : p ∈ insertA k v l) : p = (k, v) ∨ p ∈ l := by
  induction l with
  | nil =>
    simp [insertA] at h
    exact Or.inl h
  | cons hd tl ih =>
    by_cases hk : hd.1 = k
    · simp only [insertA, if_pos hk, List.mem_cons] at h
      rcases h with h | h
      · exact Or.inl h
      · exact Or.inr (List.mem_cons_of_mem _ h)
    · simp only [insertA, if_neg hk, List.mem_cons] at h
      rcases h with h | h
      · exact Or.inr (by simp [h])
      · rcases ih h with h' | h'
        · exact Or.inl h'
        · exact Or.inr (List.mem_cons_of_mem _ h')

theorem lookupA_append {α : Type} (k : String) (l1 l2 : List (String × α)) :
    lookupA k (l1 ++ l2) =
      match lookupA k l1 with
      | some v => some v
      | none => lookupA k l2 := by
  induction l1 with
  | nil => simp [lookupA]
  | cons hd tl ih =>
    by_cases hh : hd.1 = k
    · simp [lookupA, hh]
    · simp [lookupA, hh, ih]

theorem foldl_insertA_keys_nodup {α : Type} (l : List (String × α)) :
    ∀ acc : List (String × α), (acc.map Prod.fst).Nodup →
      (((l.foldl (fun acc kv => insertA kv.1 kv.2 acc) acc)).map Prod.fst).Nodup := by
  induction l with
  | nil => intro acc h; simpa using h
  | cons hd tl ih =>
    intro acc h
    exact ih (insertA hd.1 hd.2 acc) (insertA_keys_nodup hd.1 hd.2 acc h)

theorem dictFold_keys_nodup {α : Type} (l : List (String × α)) :
    ((dictFold l).map Prod.fst).Nodup :=
  foldl_insertA_keys_nodup l [] (by simp)

theorem lookupA_foldl_insertA {α : Type} (k : String) (l : List (String × α)) :
    ∀ acc : List (String × α),
      lookupA k (l.foldl (fun acc kv => insertA kv.1 kv.2 acc) acc) =
        match lookupA k l.reverse with
        | some v => some v
        | none => lookupA k acc := by
  induction l with
  | nil => intro acc; simp [lookupA]
  | cons hd tl ih =>
    intro acc
    rw [List.foldl_cons, ih (insertA hd.1 hd.2 acc), lookupA_insertA hd.1 k hd.2 acc]
    have : (hd :: tl).reverse = tl.reverse ++ [hd] := by simp
    rw [this, lookupA_append]
    cases h : lookupA k tl.reverse with
    | some v => simp
    | none =>
      by_cases he : hd.1 = k
      · simp [lookupA, he]
      · simp [lookupA, he]

theorem dictFold_lookupA {α : Type} (k : String) (l : List (String × α)) :
    lookupA k (dictFold l) = lastAssoc k l := by
  rw [dictFold, lookupA_foldl_insertA k l [], lastAssoc]
  cases h : lookupA k l.reverse <;> simp [lookupA]

theorem foldl_insertA_mem {α : Type} (l : List (String × α)) :
    ∀ (acc : List (String × α)) (p : String × α),
      p ∈ l.foldl (fun acc kv => insertA kv.1 kv.2 acc) acc → p ∈ l ∨ p ∈ acc := by
  induction l with
  | nil => intro acc p h; exact Or.inr (by simpa using h)
  | cons hd tl ih =>
    intro acc p h
    rcases ih (insertA hd.1 hd.2 acc) p h with h' | h'
    · exact Or.inl (List.mem_cons_of_mem _ h')
    · rcases insertA_mem hd.1 hd.2 acc p h' with h'' | h''
      · exact Or.inl (by simp [h''])
      · exact Or.inr h''

theorem dictFold_mem {α : Type} (l : List (String × α)) (p : String × α)
    (h : p ∈ dictFold l) : p ∈ l := by
  rcases foldl_insertA_mem l [] p h with h' | h'
  · exact h'
  · simp at h'

theorem dictFold_of_nodup {α : Type} (l : List (String × α)) :
    ∀ acc : List (String × α), ((acc ++ l).map Prod.fst).Nodup →
      l.foldl (fun acc kv => insertA kv.1 kv.2 acc) acc = acc ++ l := by
  induction l with
  | nil => intro acc _; simp
  | cons hd tl ih =>
    intro acc h
    have hfresh : hd.1 ∉ acc.map Prod.fst := by
      intro hmem
      have : ¬ (acc.map Prod.fst ++ hd.1 :: tl.map Prod.fst).Nodup := by
        intro hn
        rcases List.nodup_append.mp hn with ⟨_, _, hdisj⟩
        exact hdisj hmem (by simp)
      exact this (by simpa using h)
    have step : insertA hd.1 hd.2 acc = acc ++ [hd] := insertA_fresh hd.1 hd.2 acc hfresh
    rw [List.foldl_cons, step, ih (acc ++ [hd]) (by simpa using h)]
    simp

theorem dictFold_id_of_nodup {α : Type} (l : List (String × α))
    (h : (l.map Prod.fst).Nodup) : dictFold l = l := by
  rw [dictFold, dictFold_of_nodup l [] (by simpa using h)]
  simp

/-! ## Dates: Python `datetime` civil fields and ordinal arithmetic

`datetime.strptime(s, "%Y%m%d")` produces a civil date `(y, m, d)`;
`+ timedelta(days=i)` adds `i` to the day ordinal.  `toOrd` and `fromOrd`
are the standard proleptic-Gregorian conversions (Hinnant's
`days_from_civil` / `civil_from_days`, also the algorithm CPython's
`datetime` is equivalent to), with ordinal 0 = 1970-01-01.  Python's
`//` and `%` on these positive divisors agree with `Int`'s `/` and `%`
here (both floor). -/

/-- A civil calendar date as stored in a Python `datetime`. -/
structure Date where
  y : Int
  m : Int
  d : Int
deriving DecidableEq

/-- Day ordinal of a civil date (days since 1970-01-01). -/
def toOrd (y m d : Int) : Int :=
  let yy := y - (if m ≤ 2 then 1 else 0)
  let era := yy / 400
  let yoe := yy - era * 400
  let doy := (153 * (m + (if 2 < m then -3 else 9)) + 2) / 5 + d - 1
  let doe := yoe * 365 + yoe / 4 - yoe / 100 + doy
  era * 146097 + doe - 719468

def toOrdD (D : Date) : Int := toOrd D.y D.m D.d

/-- Day-of-era on which the March-reckoned year `y` of an era starts. -/
def yF (y : Int) : Int := 365 * y + y / 4 - y / 100

/-- Leap-corrected day count used to recover the year-of-era. -/
def numFn (u : Int) : Int := u - u / 1460 + u / 36524 - u / 146096

/-- Year-of-era of a day-of-era. -/
def yoeFn (u : Int) : Int := numFn u / 365

/-- Day-of-era within a 400-year cycle. -/
def doeOf (z : Int) : Int := (z + 719468) % 146097

/-- 400-year era index. -/
def eraOf (z : Int) : Int := (z + 719468) / 146097

/-- Year-of-era, `0..399`. -/
def yoeOf (z : Int) : Int := yoeFn (doeOf z)

/-- Day-of-year counted from March 1st, `0..365`. -/
def doyOf (z : Int) : Int := doeOf z - yF (yoeOf z)

/-- March-based month index, `0..11`. -/
def mpOf (z : Int) : Int := (5 * doyOf z + 2) / 153

/-- Civil day of month, `1..31`. -/
def dayOfMonth (z : Int) : Int := doyOf z - (153 * mpOf z + 2) / 5 + 1

/-- Civil month, `1..12`. -/
def monthOf (z : Int) : Int := mpOf z + (if mpOf z < 10 then 3 else -9)

/-- Civil year. -/
def yearOf (z : Int) : Int := yoeOf z + eraOf z * 400 + (if monthOf z ≤ 2 then 1 else 0)

/-- Civil date of a day ordinal. -/
def fromOrd (z : Int) : Date := ⟨yearOf z, monthOf z, dayOfMonth z⟩

/-- Boundary check for one year-of-era: the `yoeFn` formula answers `y` on
the first day of year `y` and on the day before the first day of year
`y + 1`. -/
def yrOk (y : Nat) : Bool :=
  yoeFn (yF (y : Int)) == (y : Int) &&
    yoeFn (yF ((y : Int) + 1) - 1) == (y : Int)

/-- Balanced-recursion conjunction of `yrOk` over `[lo, lo + n)`. -/
def yrRange : Nat → Nat → Nat → Bool
  | 0, _, _ => false
  | _ + 1, _, 0 => true
  | _ + 1, lo, 1 => yrOk lo
  | fuel + 1, lo, n + 2 =>
    yrRange fuel lo ((n + 2) / 2) && yrRange fuel (lo + (n + 2) / 2) (n + 2 - (n + 2) / 2)

theorem allYr : yrRange 12 0 400 = true := by rfl

theorem yrRange_spec : ∀ fuel lo n, yrRange fuel lo n = true →
    ∀ k, k < n → yrOk (lo + k) = true := by
  intro fuel
  induction fuel with
  | zero => intro lo n h; simp [yrRange] at h
  | succ fuel ih =>
    intro lo n h k hk
    match n, hk with
    | 1, hk =>
      have hk0 : k = 0 := by omega
      subst hk0
      simpa [yrRange] using h
    | n + 2, hk =>
      simp only [yrRange, Bool.and_eq_true] at h
      by_cases hsplit : k < (n + 2) / 2
      · exact ih lo ((n + 2) / 2) h.1 k hsplit
      · have h2 := ih (lo + (n + 2) / 2) (n + 2 - (n + 2) / 2) h.2 (k - (n + 2) / 2) (by omega)
        have harith : lo + (n + 2) / 2 + (k - (n + 2) / 2) = lo + k := by omega
        rwa [harith] at h2

theorem yrOk_true (y : Nat) (hy : y < 400) : yrOk y = true := by
  have h := yrRange_spec 12 0 400 allYr y hy
  simpa using h

theorem yoeFn_at_start (y : Nat) (hy : y < 400) : yoeFn (yF (y : Int)) = (y : Int) := by
  have h := yrOk_true y hy
  simp only [yrOk, Bool.and_eq_true, beq_iff_eq] at h
  exact h.1

theorem yoeFn_at_last (y : Nat) (hy : y < 400) :
    yoeFn (yF ((y : Int) + 1) - 1) = (y : Int) := by
  have h := yrOk_true y hy
  simp only [yrOk, Bool.and_eq_true, beq_iff_eq] at h
  exact h.2

theorem yoeFn_step (u : Int) : yoeFn u ≤ yoeFn (u + 1) := by
  have h1 : numFn u ≤ numFn (u + 1) := by unfold numFn; omega
  unfold yoeFn
  omega

theorem yoeFn_mono (u v : Int) (h : u ≤ v) : yoeFn u ≤ yoeFn v := by
  have key : ∀ n : Nat, ∀ w : Int, yoeFn w ≤ yoeFn (w + n) := by
    intro n
    induction n with
    | zero => intro w; simp
    | succ n ih =>
      intro w
      have h1 := ih w
      have h2 := yoeFn_step (w + n)
      have harith : w + (n + 1 : Nat) = w + n + 1 := by push_cast; ring
      rw [harith]
      omega
  have hn : v = u + (v - u).toNat := by omega
  rw [hn]
  exact key (v - u).toNat u

theorem yoeFn_window (u : Int) (h1 : 0 ≤ u) (h2 : u ≤ 146096) :
    0 ≤ yoeFn u ∧ yoeFn u ≤ 399 := by
  have hlo : yoeFn 0 = 0 := by decide
  have hhi : yoeFn 146096 = 399 := by decide
  have ha := yoeFn_mono 0 u h1
  have hb := yoeFn_mono u 146096 h2
  omega

theorem yoeFn_at_start_int (y : Int) (h0 : 0 ≤ y) (h399 : y < 400) :
    yoeFn (yF y) = y := by
  have hcast : ((y.toNat : Nat) : Int) = y := by omega
  have h := yoeFn_at_start y.toNat (by omega)
  rwa [hcast] at h

theorem yoeFn_before_start (y : Int) (hy1 : 1 ≤ y) (hy2 : y ≤ 400) :
    yoeFn (yF y - 1) = y - 1 := by
  have hcast : (((y - 1).toNat : Nat) : Int) = y - 1 := by omega
  have h := yoeFn_at_last (y - 1).toNat (by omega)
  rw [hcast] at h
  have harith : y - 1 + 1 = y := by ring
  rwa [harith] at h

/-- The sandwich: every day-of-era lies in the year `yoeFn` assigns to it,
at offset at most 365 from that year's start. -/
theorem yF_sandwich (u : Int) (h1 : 0 ≤ u) (h2 : u ≤ 146096) :
    yF (yoeFn u) ≤ u ∧ u ≤ yF (yoeFn u) + 365 := by
  obtain ⟨hy0, hy399⟩ := yoeFn_window u h1 h2
  constructor
  · by_contra hlt
    push_neg at hlt
    have hy1 : 1 ≤ yoeFn u := by
      by_contra hy
      push_neg at hy
      have hz : yoeFn u = 0 := by omega
      rw [hz] at hlt
      have hF0 : yF 0 = 0 := by decide
      omega
    have hb := yoeFn_before_start (yoeFn u) hy1 (by omega)
    have hmono := yoeFn_mono u (yF (yoeFn u) - 1) (by omega)
    rw [hb] at hmono
    omega
  · by_cases h399 : yoeFn u = 399
    · have hF399 : yF 399 = 145731 := by decide
      rw [h399]
      omega
    · by_contra hgt
      push_neg at hgt
      have hb := yoeFn_at_start_int (yoeFn u + 1) (by omega) (by omega)
      have hjump : yF (yoeFn u + 1) ≤ yF (yoeFn u) + 366 := by unfold yF; omega
      have hmono := yoeFn_mono (yF (yoeFn u + 1)) u (by omega)
      rw [hb] at hmono
      omega

theorem yoeOf_bounds (z : Int) : 0 ≤ yoeOf z ∧ yoeOf z ≤ 399 := by
  have hdoe : 0 ≤ doeOf z ∧ doeOf z < 146097 := by unfold doeOf; omega
  exact yoeFn_window (doeOf z) hdoe.1 (by omega)

theorem doyOf_bounds (z : Int) : 0 ≤ doyOf z ∧ doyOf z ≤ 365 := by
  have hdoe : 0 ≤ doeOf z ∧ doeOf z < 146097 := by unfold doeOf; omega
  have hs := yF_sandwich (doeOf z) hdoe.1 (by omega)
  unfold doyOf yoeOf
  omega

theorem mpOf_bounds (z : Int) : 0 ≤ mpOf z ∧ mpOf z ≤ 11 := by
  have h := doyOf_bounds z
  unfold mpOf
  omega

theorem dayOfMonth_bounds (z : Int) : 1 ≤ dayOfMonth z ∧ dayOfMonth z ≤ 31 := by
  have h := doyOf_bounds z
  unfold dayOfMonth mpOf
  omega

theorem monthOf_bounds (z : Int) : 1 ≤ monthOf z ∧ monthOf z ≤ 12 := by
  have h := mpOf_bounds z
  unfold monthOf
  split <;> omega

/-- Converting an ordinal to its civil date and back is the identity:
`fromOrd` hits exactly the valid civil dates, one ordinal each. -/
theorem toOrd_fromOrd (z : Int) : toOrdD (fromOrd z) = z := by
  have hera : eraOf z * 146097 + doeOf z = z + 719468 := by unfold eraOf doeOf; omega
  have hdoe : 0 ≤ doeOf z ∧ doeOf z < 146097 := by unfold doeOf; omega
  have hyoe := yoeOf_bounds z
  have hdoyb := doyOf_bounds z
  have hmpb := mpOf_bounds z
  have hdoy : doyOf z = doeOf z - (365 * yoeOf z + yoeOf z / 4 - yoeOf z / 100) := rfl
  have hgA : (yoeOf z + eraOf z * 400) / 400 = eraOf z := by omega
  simp only [toOrdD, fromOrd, toOrd, yearOf, monthOf, dayOfMonth]
  split_ifs <;>
    simp only [add_zero, sub_zero, add_sub_cancel_right, add_neg_cancel_right,
      neg_add_cancel_right] <;>
    rw [hgA] <;>
    simp only [add_sub_cancel_right] <;>
    omega

theorem fromOrd_inj (z1 z2 : Int) (h : fromOrd z1 = fromOrd z2) : z1 = z2 := by
  have := congrArg toOrdD h
  rwa [toOrd_fromOrd, toOrd_fromOrd] at this

/-- Within Python's representable range (years 1..9999, i.e. ordinals
`toOrd 1 1 1 = -719162` to `toOrd 9999 12 31 = 2932896`), the civil year
stays in `1..9999`. -/
theorem yearOf_window (z : Int) (h1 : -719162 ≤ z) (h2 : z ≤ 2932896) :
    1 ≤ yearOf z ∧ yearOf z ≤ 9999 := by
  have hera : eraOf z * 146097 + doeOf z = z + 719468 := by unfold eraOf doeOf; omega
  have hdoe : 0 ≤ doeOf z ∧ doeOf z < 146097 := by unfold doeOf; omega
  have hyoe := yoeOf_bounds z
  have hdoyb := doyOf_bounds z
  have hmpb := mpOf_bounds z
  have hdoy : doyOf z = doeOf z - (365 * yoeOf z + yoeOf z / 4 - yoeOf z / 100) := rfl
  have hmp : mpOf z = (5 * doyOf z + 2) / 153 := rfl
  unfold yearOf monthOf
  split_ifs <;> omega

/-! ## `strftime` formatting: `%A`, `%Y-%m-%d`, `%Y%m%d` -/

/-- Full English weekday names, Monday first (Python's `date.weekday()`
convention; `strftime("%A")` under the default C locale). -/
def dayNames : List String :=
  ["Monday", "Tuesday", "Wednesday", "Thursday", "Friday", "Saturday", "Sunday"]

/-- `strftime("%A")`: full English weekday name of a civil date, computed
purely from the date's ordinal (1970-01-01, ordinal 0, was a Thursday). -/
def weekdayName (D : Date) : String :=
  dayNames.getD ((toOrdD D + 3) % 7).toNat ""

/-- Weekday name of a day ordinal. -/
def dayNameOfOrd (z : Int) : String :=
  dayNames.getD ((z + 3) % 7).toNat ""

theorem weekdayName_fromOrd (z : Int) : weekdayName (fromOrd z) = dayNameOfOrd z := by
  unfold weekdayName dayNameOfOrd
  rw [toOrd_fromOrd]

/-- One decimal digit character. -/
def digitOf (n : Nat) : Char :=
  match n with
  | 0 => '0'
  | 1 => '1'
  | 2 => '2'
  | 3 => '3'
  | 4 => '4'
  | 5 => '5'
  | 6 => '6'
  | 7 => '7'
  | 8 => '8'
  | _ => '9'

def digitVal (c : Char) : Nat := c.toNat - 48

theorem digitVal_digitOf (n : Nat) (h : n < 10) : digitVal (digitOf n) = n := by
  interval_cases n <;> rfl

theorem digitOf_inj (a b : Nat) (ha : a < 10) (hb : b < 10) (h : digitOf a = digitOf b) :
    a = b := by
  have h2 := congrArg digitVal h
  rwa [digitVal_digitOf a ha, digitVal_digitOf b hb] at h2

/-- `%02d`: two zero-padded decimal digits. -/
def pad2 (n : Nat) : List Char := [digitOf (n / 10 % 10), digitOf (n % 10)]

/-- `%04d` (as `strftime` renders `%Y` for years up to 9999). -/
def pad4 (n : Nat) : List Char :=
  [digitOf (n / 1000 % 10), digitOf (n / 100 % 10), digitOf (n / 10 % 10), digitOf (n % 10)]

/-- `strftime("%Y-%m-%d")` on a civil date. -/
def isoDate (D : Date) : String :=
  ⟨pad4 D.y.toNat ++ '-' :: pad2 D.m.toNat ++ '-' :: pad2 D.d.toNat⟩

/-- `strftime("%Y%m%d")` on a civil date. -/
def compactDate (D : Date) : String :=
  ⟨pad4 D.y.toNat ++ pad2 D.m.toNat ++ pad2 D.d.toNat⟩

/-- ISO string of the civil date of a day ordinal. -/
def isoOfOrd (z : Int) : String := isoDate (fromOrd z)

/-- Compact string of the civil date of a day ordinal. -/
def compactOfOrd (z : Int) : String := compactDate (fromOrd z)

theorem isoDate_inj (D1 D2 : Date)
    (hy1 : 0 ≤ D1.y ∧ D1.y ≤ 9999) (hm1 : 0 ≤ D1.m ∧ D1.m ≤ 99) (hd1 : 0 ≤ D1.d ∧ D1.d ≤ 99)
    (hy2 : 0 ≤ D2.y ∧ D2.y ≤ 9999) (hm2 : 0 ≤ D2.m ∧ D2.m ≤ 99) (hd2 : 0 ≤ D2.d ∧ D2.d ≤ 99)
    (h : isoDate D1 = isoDate D2) : D1 = D2 := by
  have hl : pad4 D1.y.toNat ++ '-' :: pad2 D1.m.toNat ++ '-' :: pad2 D1.d.toNat =
      pad4 D2.y.toNat ++ '-' :: pad2 D2.m.toNat ++ '-' :: pad2 D2.d.toNat := by
    have := congrArg String.data h
    simpa [isoDate] using this
  simp only [pad4, pad2, List.cons_append, List.nil_append, List.cons.injEq, and_true] at hl
  obtain ⟨e1, e2, e3, e4, e5, e6, e7, e8, e9, e10⟩ := hl
  have d10 : ∀ k : Nat, k % 10 < 10 := fun k => Nat.mod_lt _ (by norm_num)
  have q1 := digitOf_inj _ _ (d10 _) (d10 _) e1
  have q2 := digitOf_inj _ _ (d10 _) (d10 _) e2
  have q3 := digitOf_inj _ _ (d10 _) (d10 _) e3
  have q4 := digitOf_inj _ _ (d10 _) (d10 _) e4
  have q5 := digitOf_inj _ _ (d10 _) (d10 _) e6
  have q6 := digitOf_inj _ _ (d10 _) (d10 _) e7
  have q7 := digitOf_inj _ _ (d10 _) (d10 _) e9
  have q8 := digitOf_inj _ _ (d10 _) (d10 _) e10
  obtain ⟨y1, m1, d1⟩ := D1
  obtain ⟨y2, m2, d2⟩ := D2
  simp only at q1 q2 q3 q4 q5 q6 q7 q8 hy1 hm1 hd1 hy2 hm2 hd2
  have hy : y1 = y2 := by omega
  have hm : m1 = m2 := by omega
  have hd : d1 = d2 := by omega
  simp [hy, hm, hd]

/-- On ordinals within Python's representable window, distinct ordinals have
distinct ISO date strings. -/
theorem isoOfOrd_inj (z1 z2 : Int)
    (h1a : -719162 ≤ z1) (h1b : z1 ≤ 2932896)
    (h2a : -719162 ≤ z2) (h2b : z2 ≤ 2932896)
    (h : isoOfOrd z1 = isoOfOrd z2) : z1 = z2 := by
  have hy1 := yearOf_window z1 h1a h1b
  have hy2 := yearOf_window z2 h2a h2b
  have hm1 := monthOf_bounds z1
  have hm2 := monthOf_bounds z2
  have hd1 := dayOfMonth_bounds z1
  have hd2 := dayOfMonth_bounds z2
  have heq : fromOrd z1 = fromOrd z2 := by
    refine isoDate_inj (fromOrd z1) (fromOrd z2) ?_ ?_ ?_ ?_ ?_ ?_ h
    all_goals simp only [fromOrd]
    all_goals constructor <;> omega
  exact fromOrd_inj z1 z2 heq

/-! ## The time regex `\b\d{1,2}:\d{2}\b` and Python string helpers

`re.findall` scans left to right; at each position the engine prefers the
two-digit hour and backtracks to one digit; matches are non-overlapping.
Word characters (`\b`) are modelled over ASCII alphanumerics and `_`. -/

def isWordChar (c : Char) : Bool := c.isAlphanum || c == '_'

/-- Word boundary after a match: end of input or a non-word character. -/
def endBound : List Char → Bool
  | [] => true
  | c :: _ => !isWordChar c

/-- Word boundary before a match, given the preceding character (if any). -/
def atBoundary : Option Char → Bool
  | none => true
  | some c => !isWordChar c

/-- Try `\d{2}:\d{2}\b` at the start of `s`. -/
def matchTime2 (s : List Char) : Option (List Char × List Char) :=
  match s with
  | d1 :: d2 :: c :: n1 :: n2 :: rest =>
    if d1.isDigit && d2.isDigit && c == ':' && n1.isDigit && n2.isDigit && endBound rest then
      some ([d1, d2, c, n1, n2], rest)
    else none
  | _ => none

/-- Try `\d{1}:\d{2}\b` at the start of `s`. -/
def matchTime1 (s : List Char) : Option (List Char × List Char) :=
  match s with
  | d1 :: c :: n1 :: n2 :: rest =>
    if d1.isDigit && c == ':' && n1.isDigit && n2.isDigit && endBound rest then
      some ([d1, c, n1, n2], rest)
    else none
  | _ => none

/-- Greedy `\d{1,2}:\d{2}\b` at the start of `s`: two digits first, then
backtrack to one. -/
def matchTimeAt (s : List Char) : Option (List Char × List Char) :=
  match matchTime2 s with
  | some r => some r
  | none => matchTime1 s

/-- `re.findall` of the time pattern: scan left to right, skip one character
when no match starts here, continue after the whole match otherwise.  The
fuel argument only bounds the recursion; one unit is spent per consumed
character, so `s.length` is always enough. -/
def findTimesFuel : Nat → Option Char → List Char → List String
  | 0, _, _ => []
  | _ + 1, _, [] => []
  | fuel + 1, prev, c :: rest =>
    if atBoundary prev then
      match matchTimeAt (c :: rest) with
      | some (m, rest') => String.mk m :: findTimesFuel fuel (some (m.getLastD '0')) rest'
      | none => findTimesFuel fuel (some c) rest
    else findTimesFuel fuel (some c) rest

/-- `re.findall(r"\b\d{1,2}:\d{2}\b", s)`. -/
def findTimesStr (s : String) : List String :=
  findTimesFuel s.data.length none s.data

/-- Does a string have the shape `H:MM` or `HH:MM`? -/
def isTimeToken (s : String) : Bool :=
  match s.data with
  | [a, b, c, d] => a.isDigit && b == ':' && c.isDigit && d.isDigit
  | [a, b, c, d, e] => a.isDigit && b.isDigit && c == ':' && d.isDigit && e.isDigit
  | _ => false

/-- Python `str.replace`: replace every non-overlapping occurrence of `pat`,
scanning left to right (fuel-bounded recursion, one unit per consumed
character). -/
def replaceFuel (pat rep : List Char) : Nat → List Char → List Char
  | 0, s => s
  | _ + 1, [] => []
  | fuel + 1, c :: rest =>
    if !pat.isEmpty && pat.isPrefixOf (c :: rest) then
      rep ++ replaceFuel pat rep fuel ((c :: rest).drop pat.length)
    else c :: replaceFuel pat rep fuel rest

/-- `s.replace(pat, rep)`. -/
def pyReplace (s pat rep : String) : String :=
  ⟨replaceFuel pat.data rep.data s.data.length s.data⟩

/-- Python `pat in s` on strings. -/
def containsSub (s pat : List Char) : Bool :=
  (List.range (s.length + 1)).any (fun i => pat.isPrefixOf (s.drop i))

def strContains (s pat : String) : Bool := containsSub s.data pat.data

/-! ## The data model and the listing parser (`parse_movies`) -/

def BASE_URL : String := "https://ksa.voxcinemas.com"

/-- One date's value in `movie.timings`. -/
structure DayEntry where
  day_of_week : String
  showtimes : List (String × List (String × List String))
deriving DecidableEq

/-- The `Movie` dataclass, fields in source order. -/
structure Movie where
  slug : String
  identifier : String
  title : String
  description : String
  image_url : String
  classification : String
  language : String
  showtimes_url : String
  timings : List (String × DayEntry)
deriving DecidableEq

/-- The filter of `article.find("a", string=lambda s: s and "Showtimes" in s)`:
an `a` element whose `.string` is non-empty and contains `"Showtimes"`. -/
def showtimesAnchor (n : Node) : Bool :=
  isTag "a" n &&
    (match strOpt n with
     | some s => (s != "") && strContains s "Showtimes"
     | none => false)

/-- Build one `Movie` from a `movie-summary` article element, mirroring the
body of the `for article in movie_articles` loop of `parse_movies`. -/
def parseMovieArticle (article : Node) : Movie :=
  { slug := pyStrip (attrD article "data-slug")
    identifier := pyStrip (attrD article "data-identifier")
    title := pyStrip (attrD article "data-title")
    description :=
      match findNode (isTagClass "p" "movie-description") article with
      | some t => getText "" t
      | none => ""
    image_url :=
      match findNode (isTag "a") article with
      | some a =>
        match findNode (isTag "img") a with
        | some img => pyStrip (attrD img "data-src")
        | none => ""
      | none => ""
    classification :=
      match findNode (isTagClass "span" "classification") article with
      | some t => getText "" t
      | none => ""
    language :=
      match findNode (isTagClass "p" "language") article with
      | some t => pyStrip (pyReplace (getText "" t) "Language:" "")
      | none => ""
    showtimes_url :=
      match findNode showtimesAnchor article with
      | some a => pyStrip (attrD a "href")
      | none => ""
    timings := [] }

/-- `parse_movies`: one `Movie` per `article.movie-summary` element, in
document order. -/
def parse_movies (doc : Node) : List Movie :=
  (findAll (isTagClass "article" "movie-summary") doc).map parseMovieArticle

/-! ## The detail parser (`extract_showtimes`) -/

/-- The text a time `li` contributes: the contained link's text if a link
exists, else the item's own text. -/
def timeTextOf (time_li : Node) : String :=
  match findNode (isTag "a") time_li with
  | some a => getText " " a
  | none => getText " " time_li

/-- Body of the `for time_li in nested_ol.find_all("li")` loop: every regex
match if there is one, else the raw trimmed text if non-empty. -/
def processTimeLi (time_li : Node) : List String :=
  let time_text := timeTextOf time_li
  let found_times := findTimesStr time_text
  if found_times.isEmpty then (if time_text == "" then [] else [time_text])
  else found_times

/-- Body of the `for li in showtimes_ol.find_all("li", recursive=False)`
loop: `none` when the `strong` label or the nested `ol` is missing. -/
def processLi (li : Node) : Option (String × List String) :=
  match findNode (isTag "strong") li with
  | none => none
  | some strong =>
    match findNode (isTag "ol") li with
    | none => none
    | some nested =>
      some (getText " " strong,
        (findAll (isTag "li") nested).foldl (fun acc tl => acc ++ processTimeLi tl) [])

/-- The experience dict built for one cinema's `ol.showtimes`. -/
def experienceDictOf (ol : Node) : List (String × List String) :=
  ((directChildren ol).filter (isTag "li")).foldl
    (fun acc li =>
      match processLi li with
      | none => acc
      | some ev => insertA ev.1 ev.2 acc) []

/-- `find_next_sibling("ol", class_="showtimes")`: the first following
sibling that is an `ol` with class `showtimes`. -/
def sibOl (fs : List Node) : Option Node :=
  (fs.filter (isTagClass "ol" "showtimes")).head?

/-- Every `h3.highlight` under the dates container, with following siblings. -/
def headerPairs (dd : Node) : List (Node × List Node) :=
  (Node.subWithFollow dd).filter (fun p => isTagClass "h3" "highlight" p.1)

/-- `extract_showtimes`: cinema → experience → times from one detail page. -/
def extract_showtimes (doc : Node) : List (String × List (String × List String)) :=
  match findNode (isTagClass "div" "dates") doc with
  | none => []
  | some dd =>
    (headerPairs dd).foldl
      (fun acc p =>
        match sibOl p.2 with
        | none => acc
        | some ol => insertA (getText " " p.1) (experienceDictOf ol) acc) []

/-! ## The range enricher (`enrich_movie_with_timings_for_dates`)

`fetch_page` and `extract_showtimes` run inside the per-date `try`; the
fetch is modelled by an oracle `String → Except String Node` mapping a URL
to a parsed page or a raised exception.  Besides the mutated movie, the
embedding returns the list of URLs passed to the fetcher, in order, so that
theorems can speak about which requests were issued. -/

def detailUrl (slug compact : String) : String :=
  BASE_URL ++ "/movies/" ++ slug ++ "?d=" ++ compact ++ "#showtimes"

/-- One iteration of the date loop: compute the date's strings, issue the
fetch, store the day's entry (empty `showtimes` when the fetch raised). -/
def enrichStep (fetch : String → Except String Node) (slug : String) (o : Int)
    (acc : List (String × DayEntry) × List String) (i : Nat) :
    List (String × DayEntry) × List String :=
  let cur := fromOrd (o + i)
  let pretty := isoDate cur
  let dow := weekdayName cur
  let url := detailUrl slug (compactDate cur)
  match fetch url with
  | .ok page => (insertA pretty ⟨dow, extract_showtimes page⟩ acc.1, acc.2 ++ [url])
  | .error _ => (insertA pretty ⟨dow, []⟩ acc.1, acc.2 ++ [url])

/-- `enrich_movie_with_timings_for_dates`: reset `timings`, loop over
`range(days_to_check)` from the parsed start date.  Returns the updated
movie and the fetched URLs. -/
def enrich_movie_with_timings_for_dates (fetch : String → Except String Node)
    (movie : Movie) (start : Date) (days_to_check : Nat) : Movie × List String :=
  let o := toOrdD start
  let r := (List.range days_to_check).foldl (enrichStep fetch movie.slug o) ([], [])
  ({ movie with timings := r.1 }, r.2)

/-! ## JSON values, the exporter and `main` -/

/-- The JSON fragment grammar `json.dump` emits here (only strings, arrays
and objects occur; an object is the ordered key/value sequence of the
serialized dict). -/
inductive Json where
  | str (s : String)
  | arr (xs : List Json)
  | obj (fields : List (String × Json))

def timesToJson (ts : List String) : Json := .arr (ts.map .str)

def expToJson (em : List (String × List String)) : Json :=
  .obj (em.map (fun p => (p.1, timesToJson p.2)))

def showtimesToJson (st : List (String × List (String × List String))) : Json :=
  .obj (st.map (fun p => (p.1, expToJson p.2)))

def dayToJson (e : DayEntry) : Json :=
  .obj [("day_of_week", .str e.day_of_week), ("showtimes", showtimesToJson e.showtimes)]

def timingsToJson (tm : List (String × DayEntry)) : Json :=
  .obj (tm.map (fun p => (p.1, dayToJson p.2)))

/-- `asdict(movie)` serialized: the dataclass fields in declaration order. -/
def movieToJson (m : Movie) : Json :=
  .obj [("slug", .str m.slug), ("identifier", .str m.identifier), ("title", .str m.title),
    ("description", .str m.description), ("image_url", .str m.image_url),
    ("classification", .str m.classification), ("language", .str m.language),
    ("showtimes_url", .str m.showtimes_url), ("timings", timingsToJson m.timings)]

def moviesToJson (ms : List Movie) : Json := .arr (ms.map movieToJson)

/-- `save_movies_to_json_file`: serialize and write; the file system is an
oracle whose `.error` case is a raised `OSError` (the spec's WriteError). -/
def save_movies_to_json_file (writeFile : Json → Except String Unit)
    (movies : List Movie) : Except String Unit :=
  writeFile (moviesToJson movies)

def whatson_url : String := BASE_URL ++ "/movies/whatson"

/-- How a run of `main` can end: the body of its `try` completed, or the
top-level `except Exception` handler caught an exception and logged it.
`main` has no other exit path — every statement of its body, the final
`save_movies_to_json_file` call included, sits inside the `try`. -/
inductive RunResult where
  | completed (movies : List Movie)
  | topLevelCaught (msg : String)
deriving DecidableEq

/-- `main`: fetch the listing, parse it, enrich every movie over 10 days
from 2025-02-12, save; any exception escaping those calls is caught by the
single `except Exception` handler. -/
def mainModel (fetch : String → Except String Node)
    (writeFile : Json → Except String Unit) : RunResult :=
  match fetch whatson_url with
  | .error e => .topLevelCaught e
  | .ok html =>
    let movies := parse_movies html
    let enriched := movies.map
      (fun mv => (enrich_movie_with_timings_for_dates fetch mv ⟨2025, 2, 12⟩ 10).1)
    match save_movies_to_json_file writeFile enriched with
    | .error e => .topLevelCaught e
    | .ok _ => .completed enriched

/-! ## Reading the export back (for the round-trip property)

`json.load` turns each object into a dict by inserting its key/value pairs
in order; the decoder mirrors that with `dictFold` and then reads the
record fields back. -/

/-- Decode each element, failing if any element fails (the decoding side
of `json.load` for arrays). -/
def optMapM {α β : Type} (f : α → Option β) : List α → Option (List β)
  | [] => some []
  | a :: t =>
    match f a with
    | none => none
    | some b => (optMapM f t).map (fun bs => b :: bs)

def decodeStr : Json → Option String
  | .str s => some s
  | _ => none

def decodeTimes : Json → Option (List String)
  | .arr xs => optMapM decodeStr xs
  | _ => none

def decodeExp : Json → Option (List (String × List String))
  | .obj fs => (optMapM (fun kv => (decodeTimes kv.2).map (fun v => (kv.1, v))) fs).map dictFold
  | _ => none

def decodeShowtimes : Json → Option (List (String × List (String × List String)))
  | .obj fs => (optMapM (fun kv => (decodeExp kv.2).map (fun v => (kv.1, v))) fs).map dictFold
  | _ => none

def decodeDay (j : Json) : Option DayEntry :=
  match j with
  | .obj fs =>
    match lookupA "day_of_week" (dictFold fs), lookupA "showtimes" (dictFold fs) with
    | some jd, some js =>
      match decodeStr jd, decodeShowtimes js with
      | some dow, some st => some ⟨dow, st⟩
      | _, _ => none
    | _, _ => none
  | _ => none

def decodeTimings : Json → Option (List (String × DayEntry))
  | .obj fs => (optMapM (fun kv => (decodeDay kv.2).map (fun v => (kv.1, v))) fs).map dictFold
  | _ => none

def decodeMovie (j : Json) : Option Movie :=
  match j with
  | .obj fs =>
    match lookupA "slug" (dictFold fs), lookupA "identifier" (dictFold fs),
        lookupA "title" (dictFold fs), lookupA "description" (dictFold fs),
        lookupA "image_url" (dictFold fs), lookupA "classification" (dictFold fs),
        lookupA "language" (dictFold fs), lookupA "showtimes_url" (dictFold fs),
        lookupA "timings" (dictFold fs) with
    | some j1, some j2, some j3, some j4, some j5, some j6, some j7, some j8, some j9 =>
      match decodeStr j1, decodeStr j2, decodeStr j3, decodeStr j4, decodeStr j5,
          decodeStr j6, decodeStr j7, decodeStr j8, decodeTimings j9 with
      | some s1, some s2, some s3, some s4, some s5, some s6, some s7, some s8, some tm =>
        some ⟨s1, s2, s3, s4, s5, s6, s7, s8, tm⟩
      | _, _, _, _, _, _, _, _, _ => none
    | _, _, _, _, _, _, _, _, _ => none
  | _ => none

def decodeMovies : Json → Option (List Movie)
  | .arr xs => optMapM decodeMovie xs
  | _ => none

/-! ## Characterizing the enrichment loop -/

/-- The URL the date loop fetches on iteration `i` when the start date has
ordinal `o`. -/
def urlAt (slug : String) (o : Int) (i : Nat) : String :=
  detailUrl slug (compactOfOrd (o + i))

/-- The `DayEntry` the date loop stores on iteration `i`. -/
def dayValueAt (fetch : String → Except String Node) (slug : String) (o : Int) (i : Nat) :
    DayEntry :=
  ⟨dayNameOfOrd (o + i),
    match fetch (urlAt slug o i) with
    | .ok page => extract_showtimes page
    | .error _ => []⟩

theorem enrichStep_eq (fetch : String → Except String Node) (slug : String) (o : Int)
    (acc : List (String × DayEntry) × List String) (i : Nat) :
    enrichStep fetch slug o acc i =
      (insertA (isoOfOrd (o + (i : Int))) (dayValueAt fetch slug o i) acc.1,
        acc.2 ++ [urlAt slug o i]) := by
  simp only [enrichStep, dayValueAt, urlAt, isoOfOrd, compactOfOrd, weekdayName_fromOrd]
  cases fetch (detailUrl slug (compactDate (fromOrd (o + (i : Int))))) <;> rfl

theorem enrich_log_eq (fetch : String → Except String Node) (slug : String) (o : Int) :
    ∀ (l : List Nat) (acc : List (String × DayEntry) × List String),
      (l.foldl (enrichStep fetch slug o) acc).2 = acc.2 ++ l.map (urlAt slug o) := by
  intro l
  induction l with
  | nil => intro acc; simp
  | cons i t ih =>
    intro acc
    rw [List.foldl_cons, ih (enrichStep fetch slug o acc i), enrichStep_eq]
    simp

theorem enrich_timings_fold (fetch : String → Except String Node) (slug : String) (o : Int) :
    ∀ (l : List Nat) (acc : List (String × DayEntry) × List String),
      ((l.map (fun (i : Nat) => isoOfOrd (o + (i : Int)))).Nodup) →
      (∀ i ∈ l, isoOfOrd (o + (i : Int)) ∉ acc.1.map Prod.fst) →
      (l.foldl (enrichStep fetch slug o) acc).1 =
        acc.1 ++ l.map (fun (i : Nat) => (isoOfOrd (o + (i : Int)), dayValueAt fetch slug o i)) := by
  intro l
  induction l with
  | nil => intro acc _ _; simp
  | cons i t ih =>
    intro acc hnd hfresh
    simp only [List.map_cons, List.nodup_cons] at hnd
    rw [List.foldl_cons, enrichStep_eq]
    have hstep : insertA (isoOfOrd (o + (i : Int))) (dayValueAt fetch slug o i) acc.1 =
        acc.1 ++ [(isoOfOrd (o + (i : Int)), dayValueAt fetch slug o i)] :=
      insertA_fresh _ _ _ (hfresh i (by simp))
    have hrec := ih (acc.1 ++ [(isoOfOrd (o + (i : Int)), dayValueAt fetch slug o i)],
        acc.2 ++ [urlAt slug o i]) hnd.2 ?_
    · rw [hstep, hrec]
      simp
    · intro j hj
      simp only [List.map_append, List.mem_append]
      push_neg
      refine ⟨hfresh j (by simp [hj]), ?_⟩
      simp only [List.map_cons, List.map_nil, List.mem_singleton]
      intro hjk
      exact hnd.1 (hjk ▸ List.mem_map_of_mem (fun (i : Nat) => isoOfOrd (o + (i : Int))) hj)

/-- Within the representable window, the ISO keys of the requested range are
pairwise distinct. -/
theorem range_iso_nodup (o : Int) (N : Nat)
    (hlo : -719162 ≤ o) (hhi : o + N - 1 ≤ 2932896) :
    ((List.range N).map (fun (i : Nat) => isoOfOrd (o + (i : Int)))).Nodup := by
  refine List.Nodup.map_on ?_ (List.nodup_range N)
  intro i hi j hj hij
  have hi' := List.mem_range.mp hi
  have hj' := List.mem_range.mp hj
  have := isoOfOrd_inj (o + (i : Int)) (o + (j : Int)) (by omega) (by omega) (by omega)
    (by omega) hij
  omega

/-- The full characterization of `movie.timings` after enrichment. -/
theorem enrich_timings_eq (fetch : String → Except String Node) (mv : Movie) (start : Date)
    (N : Nat) (hlo : -719162 ≤ toOrdD start) (hhi : toOrdD start + N - 1 ≤ 2932896) :
    (enrich_movie_with_timings_for_dates fetch mv start N).1.timings =
      (List.range N).map
        (fun (i : Nat) =>
          (isoOfOrd (toOrdD start + (i : Int)), dayValueAt fetch mv.slug (toOrdD start) i)) := by
  simp only [enrich_movie_with_timings_for_dates]
  have h := enrich_timings_fold fetch mv.slug (toOrdD start) (List.range N) ([], [])
    (range_iso_nodup (toOrdD start) N hlo hhi) (by intro i _; simp)
  simpa using h

/-- The list of URLs handed to the fetcher by the date loop. -/
theorem enrich_log_chars (fetch : String → Except String Node) (mv : Movie) (start : Date)
    (N : Nat) :
    (enrich_movie_with_timings_for_dates fetch mv start N).2 =
      (List.range N).map (urlAt mv.slug (toOrdD start)) := by
  simp only [enrich_movie_with_timings_for_dates]
  have h := enrich_log_eq fetch mv.slug (toOrdD start) (List.range N) ([], [])
  simpa using h

theorem lookupA_map_range {α : Type} (key : Nat → String) (val : Nat → α) :
    ∀ (l : List Nat) (j : Nat), j ∈ l → (∀ i ∈ l, key i = key j → i = j) →
      lookupA (key j) (l.map (fun i => (key i, val i))) = some (val j) := by
  intro l
  induction l with
  | nil => intro j hj _; simp at hj
  | cons a t ih =>
    intro j hj hinj
    by_cases hak : key a = key j
    · have haj : a = j := hinj a (by simp) hak
      subst haj
      simp [lookupA]
    · have hne : a ≠ j := fun h => hak (h ▸ rfl)
      have hjt : j ∈ t := by
        rcases List.mem_cons.mp hj with h | h
        · exact absurd h.symm hne
        · exact h
      simp only [List.map_cons, lookupA, if_neg hak]
      exact ih j hjt (fun i hi => hinj i (List.mem_cons_of_mem _ hi))

/-! ## Sample concrete inputs used by witnesses -/

def sampleFetch : String → Except String Node := fun _ => Except.error "network down"

def sampleMovie : Movie := ⟨"avatar", "m123", "Avatar", "", "", "", "", "", []⟩

def startDate : Date := ⟨2025, 2, 12⟩

def emptyDoc : Node := .elem "html" [] [] .nil

def day3Url : String := "https://ksa.voxcinemas.com/movies/avatar?d=20250214#showtimes"

/-- A fetcher that raises only on day 3 of the default range. -/
def fetchFailDay3 : String → Except String Node := fun u =>
  if u = day3Url then .error "boom" else .ok emptyDoc

def emptySlugMovie : Movie := ⟨"", "", "Mystery", "", "", "", "", "", []⟩

/-! ## The claims -/

/-- C1: for every movie, every start date and every non-negative day count
`N`, after enrichment `movie.timings` has exactly `N` keys — the ISO
`YYYY-MM-DD` strings of the `N` consecutive calendar dates from the start
date, in order and pairwise distinct — and each entry's `day_of_week` is
the full English weekday name computed from that date alone, for an
arbitrary fetch oracle (so regardless of what any fetch or parse
returned).  The hypotheses say the start date is a valid civil date (as
`strptime` guarantees) and the range stays inside `datetime`'s year range
1..9999 (outside it the Python loop cannot run at all). -/
theorem enrich_range_exact_keys (fetch : String → Except String Node) (mv : Movie)
    (start : Date) (N : Nat)
    (hvalid : fromOrd (toOrdD start) = start)
    (hlo : -719162 ≤ toOrdD start) (hhi : toOrdD start + (N : Int) - 1 ≤ 2932896) :
    ((enrich_movie_with_timings_for_dates fetch mv start N).1.timings).map
        (fun e => (e.1, e.2.day_of_week)) =
      (List.range N).map
        (fun (i : Nat) =>
          (isoOfOrd (toOrdD start + (i : Int)), dayNameOfOrd (toOrdD start + (i : Int))))
    ∧ (((enrich_movie_with_timings_for_dates fetch mv start N).1.timings).map Prod.fst).Nodup
    ∧ ((enrich_movie_with_timings_for_dates fetch mv start N).1.timings).length = N
    ∧ (0 < N →
        ((enrich_movie_with_timings_for_dates fetch mv start N).1.timings).head?.map Prod.fst =
          some (isoDate start)) := by
  have hchar := enrich_timings_eq fetch mv start N hlo hhi
  refine ⟨?_, ?_, ?_, ?_⟩
  · rw [hchar, List.map_map]
    rfl
  · rw [hchar, List.map_map]
    exact range_iso_nodup (toOrdD start) N hlo hhi
  · rw [hchar]
    simp
  · intro hN
    rw [hchar]
    obtain ⟨k, rfl⟩ : ∃ k, N = k + 1 := ⟨N - 1, by omega⟩
    rw [List.range_succ_eq_map]
    simp only [List.map_cons, List.head?_cons, Option.map_some, Nat.cast_zero, add_zero]
    unfold isoOfOrd
    rw [hvalid]
    rfl

theorem enrich_range_exact_keys_witness :
    ((enrich_movie_with_timings_for_dates sampleFetch sampleMovie startDate 3).1.timings).map
        (fun e => (e.1, e.2.day_of_week)) =
      (List.range 3).map
        (fun (i : Nat) =>
          (isoOfOrd (toOrdD startDate + (i : Int)), dayNameOfOrd (toOrdD startDate + (i : Int))))
    ∧ (((enrich_movie_with_timings_for_dates sampleFetch sampleMovie startDate 3).1.timings).map
        Prod.fst).Nodup
    ∧ ((enrich_movie_with_timings_for_dates sampleFetch sampleMovie startDate 3).1.timings).length
        = 3
    ∧ ((enrich_movie_with_timings_for_dates sampleFetch sampleMovie startDate 3).1.timings).head?.map
        Prod.fst = some (isoDate startDate) := by
  have h := enrich_range_exact_keys sampleFetch sampleMovie startDate 3 (by decide) (by decide)
    (by decide)
  exact ⟨h.1, h.2.1, h.2.2.1, h.2.2.2 (by decide)⟩

/-- C2: if the fetch for date `j` of the range raises, that date's entry is
exactly `{day_of_week: correct name, showtimes: {}}`, and enrichment still
produces all `N` entries (the exception is absorbed by the per-date `try`
and the loop continues). -/
theorem enrich_failure_isolated (fetch : String → Except String Node) (mv : Movie)
    (start : Date) (N j : Nat) (e : String)
    (hlo : -719162 ≤ toOrdD start) (hhi : toOrdD start + (N : Int) - 1 ≤ 2932896)
    (hj : j < N)
    (hfail : fetch (urlAt mv.slug (toOrdD start) j) = .error e) :
    lookupA (isoOfOrd (toOrdD start + (j : Int)))
        (enrich_movie_with_timings_for_dates fetch mv start N).1.timings =
      some ⟨dayNameOfOrd (toOrdD start + (j : Int)), []⟩
    ∧ ((enrich_movie_with_timings_for_dates fetch mv start N).1.timings).length = N := by
  have hchar := enrich_timings_eq fetch mv start N hlo hhi
  constructor
  · rw [hchar]
    have hlook := lookupA_map_range (fun (i : Nat) => isoOfOrd (toOrdD start + (i : Int)))
      (dayValueAt fetch mv.slug (toOrdD start)) (List.range N) j (List.mem_range.mpr hj) ?_
    · rw [hlook]
      unfold dayValueAt
      rw [hfail]
    · intro i hi hkey
      have hi' := List.mem_range.mp hi
      have := isoOfOrd_inj (toOrdD start + (i : Int)) (toOrdD start + (j : Int)) (by omega)
        (by omega) (by omega) (by omega) hkey
      omega
  · rw [hchar]
    simp

theorem enrich_failure_isolated_witness :
    lookupA (isoOfOrd (toOrdD startDate + (2 : Int)))
        (enrich_movie_with_timings_for_dates fetchFailDay3 sampleMovie startDate 10).1.timings =
      some ⟨dayNameOfOrd (toOrdD startDate + (2 : Int)), []⟩
    ∧ ((enrich_movie_with_timings_for_dates fetchFailDay3 sampleMovie startDate 10).1.timings).length
        = 10 :=
  enrich_failure_isolated fetchFailDay3 sampleMovie startDate 10 2 "boom" (by decide) (by decide)
    (by decide) rfl

/-- C7: every date of the range issues exactly one request, whose URL is
literally `{base}/movies/{slug}?d={YYYYMMDD}#showtimes`; a movie with an
empty slug still gets all its requests issued, with the slug position
empty in the URL, rather than being skipped. -/
theorem enrich_request_url_format (fetch : String → Except String Node) (mv : Movie)
    (start : Date) (N : Nat) :
    (enrich_movie_with_timings_for_dates fetch mv start N).2 =
      (List.range N).map
        (fun (i : Nat) =>
          BASE_URL ++ "/movies/" ++ mv.slug ++ "?d=" ++
            compactOfOrd (toOrdD start + (i : Int)) ++ "#showtimes")
    ∧ (mv.slug = "" →
        (enrich_movie_with_timings_for_dates fetch mv start N).2 =
          (List.range N).map
            (fun (i : Nat) =>
              "https://ksa.voxcinemas.com/movies/?d=" ++
                compactOfOrd (toOrdD start + (i : Int)) ++ "#showtimes")) := by
  constructor
  · rw [enrich_log_chars]
    rfl
  · intro hslug
    rw [enrich_log_chars]
    apply List.map_congr_left
    intro i _
    simp only [urlAt, detailUrl, hslug]
    have hlit : BASE_URL ++ "/movies/" ++ "" ++ "?d=" =
        "https://ksa.voxcinemas.com/movies/?d=" := by decide
    rw [hlit]

theorem enrich_request_url_format_witness :
    (enrich_movie_with_timings_for_dates sampleFetch emptySlugMovie startDate 2).2 =
      (List.range 2).map
        (fun (i : Nat) =>
          "https://ksa.voxcinemas.com/movies/?d=" ++
            compactOfOrd (toOrdD startDate + (i : Int)) ++ "#showtimes") :=
  (enrich_request_url_format sampleFetch emptySlugMovie startDate 2).2 rfl

/-! ## C3: shape of the extracted time tokens -/

theorem matchTime2_token : ∀ (s m r : List Char),
    matchTime2 s = some (m, r) → isTimeToken ⟨m⟩ = true := by
  intro s m r h
  match s with
  | [] => simp [matchTime2] at h
  | [a] => simp [matchTime2] at h
  | [a, b] => simp [matchTime2] at h
  | [a, b, c] => simp [matchTime2] at h
  | [a, b, c, d] => simp [matchTime2] at h
  | a :: b :: c :: d :: e :: rest =>
    simp only [matchTime2] at h
    split_ifs at h with hc
    · simp only [Option.some.injEq, Prod.mk.injEq] at h
      obtain ⟨hm, _⟩ := h
      subst hm
      simp only [Bool.and_eq_true] at hc
      obtain ⟨⟨⟨⟨⟨h1, h2⟩, h3⟩, h4⟩, h5⟩, _⟩ := hc
      simp [isTimeToken, h1, h2, h3, h4, h5]

theorem matchTime1_token : ∀ (s m r : List Char),
    matchTime1 s = some (m, r) → isTimeToken ⟨m⟩ = true := by
  intro s m r h
  match s with
  | [] => simp [matchTime1] at h
  | [a] => simp [matchTime1] at h
  | [a, b] => simp [matchTime1] at h
  | [a, b, c] => simp [matchTime1] at h
  | a :: b :: c :: d :: rest =>
    simp only [matchTime1] at h
    split_ifs at h with hc
    · simp only [Option.some.injEq, Prod.mk.injEq] at h
      obtain ⟨hm, _⟩ := h
      subst hm
      simp only [Bool.and_eq_true] at hc
      obtain ⟨⟨⟨h1, h2⟩, h3⟩, h4⟩ := hc
      simp [isTimeToken, h1, h2, h3, h4]

theorem matchTimeAt_token (s m r : List Char) (h : matchTimeAt s = some (m, r)) :
    isTimeToken ⟨m⟩ = true := by
  unfold matchTimeAt at h
  cases h2 : matchTime2 s with
  | some r2 =>
    obtain ⟨m2, rest2⟩ := r2
    rw [h2] at h
    simp only [Option.some.injEq, Prod.mk.injEq] at h
    obtain ⟨hm, hr⟩ := h
    subst hm
    exact matchTime2_token s m2 rest2 h2
  | none =>
    rw [h2] at h
    exact matchTime1_token s m r h

theorem findTimesFuel_tokens : ∀ (fuel : Nat) (prev : Option Char) (s : List Char) (tok : String),
    tok ∈ findTimesFuel fuel prev s → isTimeToken tok = true := by
  intro fuel
  induction fuel with
  | zero => intro prev s tok h; simp [findTimesFuel] at h
  | succ fuel ih =>
    intro prev s tok h
    match s with
    | [] => simp [findTimesFuel] at h
    | c :: rest =>
      simp only [findTimesFuel] at h
      by_cases hb : atBoundary prev = true
      · rw [if_pos hb] at h
        cases hma : matchTimeAt (c :: rest) with
        | none => rw [hma] at h; exact ih _ _ _ h
        | some pr =>
          obtain ⟨m, rest'⟩ := pr
          rw [hma] at h
          rcases List.mem_cons.mp h with h1 | h1
          · subst h1; exact matchTimeAt_token _ _ _ hma
          · exact ih _ _ _ h1
      · rw [if_neg hb] at h
        exact ih _ _ _ h

/-- C3: for every time entry processed by `extract_showtimes`, the text
used is the contained link's text when a link exists and the item's own
text otherwise; every token in the entry's output either matches the
one-or-two-digit-hour/colon/two-digit-minute shape or equals the entry's
raw trimmed text when the pattern found nothing in it; and when the
pattern does match, the output is exactly all matches, in order. -/
theorem extract_time_entry_tokens (time_li : Node) :
    ((∀ a, findNode (isTag "a") time_li = some a → timeTextOf time_li = getText " " a)
      ∧ (findNode (isTag "a") time_li = none → timeTextOf time_li = getText " " time_li))
    ∧ (∀ tok ∈ processTimeLi time_li,
        isTimeToken tok = true ∨
          (tok = timeTextOf time_li ∧ findTimesStr (timeTextOf time_li) = []))
    ∧ (findTimesStr (timeTextOf time_li) ≠ [] →
        processTimeLi time_li = findTimesStr (timeTextOf time_li))
    ∧ (findTimesStr (timeTextOf time_li) = [] →
        processTimeLi time_li =
          if timeTextOf time_li == "" then [] else [timeTextOf time_li]) := by
  refine ⟨⟨?_, ?_⟩, ?_, ?_, ?_⟩
  · intro a ha
    unfold timeTextOf
    rw [ha]
  · intro ha
    unfold timeTextOf
    rw [ha]
  · intro tok htok
    simp only [processTimeLi] at htok
    by_cases hemp : (findTimesStr (timeTextOf time_li)).isEmpty = true
    · rw [if_pos hemp] at htok
      right
      by_cases htx : (timeTextOf time_li == "") = true
      · rw [if_pos htx] at htok
        simp at htok
      · rw [if_neg htx] at htok
        simp only [List.mem_singleton] at htok
        exact ⟨htok, List.isEmpty_iff.mp hemp⟩
    · rw [if_neg hemp] at htok
      exact Or.inl (findTimesFuel_tokens _ _ _ _ htok)
  · intro hne
    simp only [processTimeLi]
    rw [if_neg (fun hemp => hne (List.isEmpty_iff.mp hemp))]
  · intro heq
    simp only [processTimeLi]
    rw [if_pos (List.isEmpty_iff.mpr heq)]

def sampleTimeLi : Node :=
  .elem "li" [] [] (nodesOf [.elem "a" [] [] (nodesOf [.text "10:30 and 11:45"])])

theorem extract_time_entry_tokens_witness :
    processTimeLi sampleTimeLi = findTimesStr (timeTextOf sampleTimeLi)
    ∧ findTimesStr (timeTextOf sampleTimeLi) = ["10:30", "11:45"] :=
  ⟨(extract_time_entry_tokens sampleTimeLi).2.2.1 (by decide), by decide⟩

/-! ## C4 and C10: structure of `extract_showtimes` -/

/-- The experience pairs contributed by one cinema's list, in document
order (one per direct `li` that has both a `strong` label and a nested
`ol`). -/
def liPairs (ol : Node) : List (String × List String) :=
  ((directChildren ol).filter (isTag "li")).filterMap processLi

/-- The cinema pairs contributed by the headings, in document order (one
per heading that has a following-sibling `ol.showtimes`). -/
def cinemaPairs (dd : Node) : List (String × List (String × List String)) :=
  (headerPairs dd).filterMap
    (fun p => (sibOl p.2).map (fun ol => (getText " " p.1, experienceDictOf ol)))

theorem fold_li_eq : ∀ (l : List Node) (acc : List (String × List String)),
    (l.foldl (fun acc li =>
        match processLi li with
        | none => acc
        | some ev => insertA ev.1 ev.2 acc) acc)
      = (l.filterMap processLi).foldl (fun acc kv => insertA kv.1 kv.2 acc) acc := by
  intro l
  induction l with
  | nil => intro acc; rfl
  | cons li t ih =>
    intro acc
    cases h : processLi li with
    | none => simp [List.foldl_cons, List.filterMap_cons, h, ih]
    | some ev => simp [List.foldl_cons, List.filterMap_cons, h, ih]

theorem expDict_eq (ol : Node) : experienceDictOf ol = dictFold (liPairs ol) := by
  unfold experienceDictOf liPairs dictFold
  exact fold_li_eq _ []

theorem fold_sib_eq : ∀ (l : List (Node × List Node))
    (acc : List (String × List (String × List String))),
    (l.foldl (fun acc p =>
        match sibOl p.2 with
        | none => acc
        | some ol => insertA (getText " " p.1) (experienceDictOf ol) acc) acc)
      = (l.filterMap (fun p => (sibOl p.2).map
            (fun ol => (getText " " p.1, experienceDictOf ol)))).foldl
          (fun acc kv => insertA kv.1 kv.2 acc) acc := by
  intro l
  induction l with
  | nil => intro acc; rfl
  | cons p t ih =>
    intro acc
    cases h : sibOl p.2 with
    | none => simp [List.foldl_cons, List.filterMap_cons, h, ih]
    | some ol => simp [List.foldl_cons, List.filterMap_cons, h, ih]

/-- `extract_showtimes` is the dict built from the heading/sibling pairs. -/
theorem extract_eq (doc dd : Node)
    (hdd : findNode (isTagClass "div" "dates") doc = some dd) :
    extract_showtimes doc = dictFold (cinemaPairs dd) := by
  unfold extract_showtimes
  rw [hdd]
  unfold cinemaPairs dictFold
  exact fold_sib_eq _ []

/-- C4: each cinema heading uses exactly its first following-sibling
`ol.showtimes` as the experience list (that is what `cinemaPairs`
records), and a heading with no such sibling contributes nothing — a name
appears in the output only if some heading with that text has such a
sibling list. -/
theorem extract_heading_sibling_list (doc dd : Node)
    (hdd : findNode (isTagClass "div" "dates") doc = some dd) :
    extract_showtimes doc = dictFold (cinemaPairs dd)
    ∧ ∀ name ∈ (extract_showtimes doc).map Prod.fst,
        ∃ p ∈ headerPairs dd, getText " " p.1 = name ∧ (sibOl p.2).isSome = true := by
  have he := extract_eq doc dd hdd
  refine ⟨he, ?_⟩
  intro name hname
  rw [he] at hname
  obtain ⟨ce, hce, hfst⟩ := List.mem_map.mp hname
  have hmem := dictFold_mem _ _ hce
  obtain ⟨p, hp, hpe⟩ := List.mem_filterMap.mp hmem
  cases hs : sibOl p.2 with
  | none => rw [hs] at hpe; exact Option.noConfusion hpe
  | some ol =>
    rw [hs] at hpe
    simp only [Option.map_some', Option.some.injEq] at hpe
    subst hpe
    refine ⟨p, hp, ?_, by rw [hs]; rfl⟩
    simpa using hfst

def h3A : Node := .elem "h3" ["highlight"] [] (nodesOf [.text "Cinema One"])

def olA : Node := .elem "ol" ["showtimes"] [] .nil

def h3B : Node := .elem "h3" ["highlight"] [] (nodesOf [.text "Cinema Two"])

def datesDivC4 : Node := .elem "div" ["dates"] [] (nodesOf [h3A, olA, h3B])

def docC4 : Node := .elem "html" [] [] (nodesOf [datesDivC4])

theorem extract_heading_sibling_list_witness :
    extract_showtimes docC4 = dictFold (cinemaPairs datesDivC4)
    ∧ extract_showtimes docC4 = [("Cinema One", [])] :=
  ⟨(extract_heading_sibling_list docC4 datesDivC4 rfl).1, by decide⟩

/-- C10: output keys are pairwise distinct; a cinema name maps to the value
of the LAST heading with that text (the later heading overwrites the
earlier), and within one cinema an experience label maps to the LAST list
item with that label. -/
theorem extract_duplicate_overwrite (doc dd : Node)
    (hdd : findNode (isTagClass "div" "dates") doc = some dd) :
    ((extract_showtimes doc).map Prod.fst).Nodup
    ∧ (∀ k, lookupA k (extract_showtimes doc) = lastAssoc k (cinemaPairs dd))
    ∧ (∀ ce ∈ extract_showtimes doc,
        ((ce.2.map Prod.fst).Nodup)
        ∧ ∃ ol, ce.2 = dictFold (liPairs ol)
            ∧ ∀ e, lookupA e ce.2 = lastAssoc e (liPairs ol)) := by
  have he := extract_eq doc dd hdd
  refine ⟨?_, ?_, ?_⟩
  · rw [he]
    exact dictFold_keys_nodup _
  · intro k
    rw [he]
    exact dictFold_lookupA k _
  · intro ce hce
    rw [he] at hce
    have hmem := dictFold_mem _ _ hce
    obtain ⟨p, hp, hpe⟩ := List.mem_filterMap.mp hmem
    cases hs : sibOl p.2 with
    | none => rw [hs] at hpe; exact Option.noConfusion hpe
    | some ol =>
      rw [hs] at hpe
      simp only [Option.map_some', Option.some.injEq] at hpe
      subst hpe
      show ((experienceDictOf ol).map Prod.fst).Nodup
        ∧ ∃ ol2, experienceDictOf ol = dictFold (liPairs ol2)
            ∧ ∀ e, lookupA e (experienceDictOf ol) = lastAssoc e (liPairs ol2)
      rw [expDict_eq ol]
      exact ⟨dictFold_keys_nodup _, ol, rfl, fun e => dictFold_lookupA e _⟩

def dupTimeLi1 : Node := .elem "li" [] [] (nodesOf [.text "10:00"])

def dupTimeLi2 : Node := .elem "li" [] [] (nodesOf [.text "21:00"])

def dupLi1 : Node :=
  .elem "li" [] [] (nodesOf [.elem "strong" [] [] (nodesOf [.text "Standard"]),
    .elem "ol" [] [] (nodesOf [dupTimeLi1])])

def dupLi2 : Node :=
  .elem "li" [] [] (nodesOf [.elem "strong" [] [] (nodesOf [.text "Standard"]),
    .elem "ol" [] [] (nodesOf [dupTimeLi2])])

def dupOl1 : Node := .elem "ol" ["showtimes"] [] (nodesOf [dupLi1, dupLi2])

def dupOl2 : Node := .elem "ol" ["showtimes"] [] (nodesOf [dupLi1])

def dupH1 : Node := .elem "h3" ["highlight"] [] (nodesOf [.text "Cinema X"])

def dupH2 : Node := .elem "h3" ["highlight"] [] (nodesOf [.text "Cinema X"])

def dupDates : Node := .elem "div" ["dates"] [] (nodesOf [dupH1, dupOl1, dupH2, dupOl2])

def docC10 : Node := .elem "html" [] [] (nodesOf [dupDates])

theorem extract_duplicate_overwrite_witness :
    lookupA "Cinema X" (extract_showtimes docC10) = lastAssoc "Cinema X" (cinemaPairs dupDates)
    ∧ extract_showtimes docC10 = [("Cinema X", [("Standard", ["10:00"])])]
    ∧ experienceDictOf dupOl1 = [("Standard", ["21:00"])] :=
  ⟨(extract_duplicate_overwrite docC10 dupDates rfl).2.1 "Cinema X", by decide, by decide⟩

/-! ## C5: the `language` field -/

/-- Modelled from the spec: the `language` field as §4.2 words it — "locate
a nested language-label element for `language`, stripping a literal
`"Language:"` prefix if present" (and, per the claim, with surrounding
whitespace trimmed and the text otherwise preserved unchanged).  To be
compared with what the code computes, which is `str.replace` of every
occurrence. -/
def specLanguageField (t : String) : String :=
  if "Language:".data.isPrefixOf t.data then pyStrip ⟨t.data.drop 9⟩ else pyStrip t

def c5langP : Node := .elem "p" ["language"] [] (nodesOf [.text "A Language: B"])

def c5article : Node := .elem "article" ["movie-summary"] [] (nodesOf [c5langP])

/-- C5 counterexample: on a language element whose text contains
`"Language:"` somewhere other than as a prefix, the code removes the interior
occurrence (`str.replace` removes every occurrence), so the field differs
from the spec's prefix-stripping description. -/
theorem parse_language_prefix_counterexample :
    findNode (isTagClass "p" "language") c5article = some c5langP
    ∧ getText "" c5langP = "A Language: B"
    ∧ (parseMovieArticle c5article).language = "A  B"
    ∧ specLanguageField (getText "" c5langP) = "A Language: B"
    ∧ (parseMovieArticle c5article).language ≠ specLanguageField (getText "" c5langP) :=
  ⟨rfl, rfl, rfl, rfl, by decide⟩

/-- C5 amended: for every movie entry with a language-label element, the
`language` field is that element's text with EVERY occurrence of the
literal substring `"Language:"` removed (non-overlapping, left to right),
then whitespace-trimmed. -/
theorem parse_language_replace_all (article p : Node)
    (hp : findNode (isTagClass "p" "language") article = some p) :
    (parseMovieArticle article).language =
      pyStrip (pyReplace (getText "" p) "Language:" "") := by
  simp only [parseMovieArticle, hp]

theorem parse_language_replace_all_witness :
    (parseMovieArticle c5article).language =
      pyStrip (pyReplace (getText "" c5langP) "Language:" "") :=
  parse_language_replace_all c5article c5langP rfl

/-! ## C6: missing optional fields -/

/-- C6: a movie entry missing any optional nested element gets the empty
string for the corresponding field; the parser is a total function, so no
error can be raised on missing optional data. -/
theorem parse_missing_optional_empty (article : Node) :
    (findNode (isTagClass "p" "movie-description") article = none →
      (parseMovieArticle article).description = "")
    ∧ (findNode (isTag "a") article = none → (parseMovieArticle article).image_url = "")
    ∧ (∀ a, findNode (isTag "a") article = some a → findNode (isTag "img") a = none →
        (parseMovieArticle article).image_url = "")
    ∧ (findNode (isTagClass "span" "classification") article = none →
        (parseMovieArticle article).classification = "")
    ∧ (findNode (isTagClass "p" "language") article = none →
        (parseMovieArticle article).language = "")
    ∧ (findNode showtimesAnchor article = none →
        (parseMovieArticle article).showtimes_url = "") := by
  refine ⟨?_, ?_, ?_, ?_, ?_, ?_⟩
  · intro h
    simp only [parseMovieArticle, h]
  · intro h
    simp only [parseMovieArticle, h]
  · intro a ha h
    simp only [parseMovieArticle, ha, h]
  · intro h
    simp only [parseMovieArticle, h]
  · intro h
    simp only [parseMovieArticle, h]
  · intro h
    simp only [parseMovieArticle, h]

def bareArticle : Node :=
  .elem "article" ["movie-summary"]
    [("data-slug", " dune "), ("data-identifier", "id1"), ("data-title", "Dune")] .nil

theorem parse_missing_optional_empty_witness :
    (parseMovieArticle bareArticle).description = ""
    ∧ (parseMovieArticle bareArticle).image_url = ""
    ∧ (parseMovieArticle bareArticle).classification = ""
    ∧ (parseMovieArticle bareArticle).language = ""
    ∧ (parseMovieArticle bareArticle).showtimes_url = ""
    ∧ (parseMovieArticle bareArticle).slug = "dune" := by
  have h := parse_missing_optional_empty bareArticle
  exact ⟨h.1 rfl, h.2.1 rfl, h.2.2.2.1 rfl, h.2.2.2.2.1 rfl, h.2.2.2.2.2 rfl, rfl⟩

/-! ## C8: a failing write is caught by `main`, not propagated -/

/-- C8 counterexample: with a listing fetch that succeeds and a write that
raises, the run ends in `main`'s own top-level `except Exception` handler
(the one that logs "Error fetching movie data").  The `try` block of
`main` spans its whole body, `save_movies_to_json_file` included, so a
WriteError cannot propagate out of the orchestration — contradicting the
claim that it is not caught by the program's own error handling. -/
theorem write_error_caught_counterexample :
    mainModel (fun _ => .ok emptyDoc) (fun _ => .error "disk full")
      = .topLevelCaught "disk full" := rfl

/-- C8 amended: whenever the listing fetch succeeds and the output-file
write raises a WriteError, the error propagates out of
`save_movies_to_json_file` only as far as `main`'s generic top-level
handler, which catches and logs it; the run terminates without the
exception escaping `main`. -/
theorem write_error_caught_by_main (fetch : String → Except String Node)
    (doc : Node) (e : String) (hfetch : fetch whatson_url = .ok doc) :
    mainModel fetch (fun _ => .error e) = .topLevelCaught e := by
  unfold mainModel
  rw [hfetch]
  rfl

theorem write_error_caught_by_main_witness :
    mainModel (fun _ => .ok emptyDoc) (fun _ => .error "no space")
      = .topLevelCaught "no space" :=
  write_error_caught_by_main (fun _ => .ok emptyDoc) emptyDoc "no space" rfl

/-! ## C9: export/read-back round trip -/

/-- A cinema→experience→times mapping as the program builds it: dict keys
are unique at both nesting levels. -/
abbrev ShowtimesWF (st : List (String × List (String × List String))) : Prop :=
  (st.map Prod.fst).Nodup ∧ ∀ p ∈ st, ((p.2.map Prod.fst).Nodup)

/-- A `Movie` record as the program builds it: every nested mapping has
unique keys. -/
abbrev MovieWF (m : Movie) : Prop :=
  (m.timings.map Prod.fst).Nodup ∧ ∀ t ∈ m.timings, ShowtimesWF t.2.showtimes

theorem mapM_decodeStr : ∀ ts : List String, optMapM decodeStr (ts.map Json.str) = some ts := by
  intro ts
  induction ts with
  | nil => rfl
  | cons a t ih => simp [optMapM, decodeStr, ih]

theorem decodeTimes_round (ts : List String) : decodeTimes (timesToJson ts) = some ts := by
  simp [decodeTimes, timesToJson, mapM_decodeStr]

theorem mapM_keyed {β : Type} (dec : Json → Option β) (enc : β → Json) :
    ∀ (l : List (String × β)), (∀ p ∈ l, dec (enc p.2) = some p.2) →
      optMapM (fun kv => (dec kv.2).map (fun v => (kv.1, v)))
          (l.map (fun p => (p.1, enc p.2))) = some l := by
  intro l
  induction l with
  | nil => intro _; rfl
  | cons p t ih =>
    intro hdec
    simp only [List.map_cons, optMapM]
    rw [hdec p (by simp)]
    rw [ih (fun q hq => hdec q (List.mem_cons_of_mem _ hq))]
    simp

theorem decodeExp_round (em : List (String × List String))
    (h : (em.map Prod.fst).Nodup) : decodeExp (expToJson em) = some em := by
  simp only [decodeExp, expToJson]
  rw [mapM_keyed decodeTimes timesToJson em (fun p _ => decodeTimes_round p.2)]
  simp [dictFold_id_of_nodup em h]

theorem decodeShowtimes_round (st : List (String × List (String × List String)))
    (h : ShowtimesWF st) : decodeShowtimes (showtimesToJson st) = some st := by
  simp only [decodeShowtimes, showtimesToJson]
  rw [mapM_keyed decodeExp expToJson st (fun p hp => decodeExp_round p.2 (h.2 p hp))]
  simp [dictFold_id_of_nodup st h.1]

theorem decodeDay_round (e : DayEntry) (h : ShowtimesWF e.showtimes) :
    decodeDay (dayToJson e) = some e := by
  obtain ⟨dow, st⟩ := e
  have hdf : dictFold [("day_of_week", Json.str dow), ("showtimes", showtimesToJson st)]
      = [("day_of_week", Json.str dow), ("showtimes", showtimesToJson st)] :=
    dictFold_id_of_nodup _ (by simp)
  simp only [decodeDay, dayToJson, hdf]
  simp [lookupA, decodeStr, decodeShowtimes_round st h]

theorem decodeTimings_round (tm : List (String × DayEntry))
    (hkeys : (tm.map Prod.fst).Nodup) (hinner : ∀ t ∈ tm, ShowtimesWF t.2.showtimes) :
    decodeTimings (timingsToJson tm) = some tm := by
  simp only [decodeTimings, timingsToJson]
  rw [mapM_keyed decodeDay dayToJson tm (fun p hp => decodeDay_round p.2 (hinner p hp))]
  simp [dictFold_id_of_nodup tm hkeys]

theorem decodeMovie_round (m : Movie) (h : MovieWF m) :
    decodeMovie (movieToJson m) = some m := by
  obtain ⟨s1, s2, s3, s4, s5, s6, s7, s8, tm⟩ := m
  obtain ⟨h1, h2⟩ := h
  have hdf : dictFold [("slug", Json.str s1), ("identifier", Json.str s2),
      ("title", Json.str s3), ("description", Json.str s4), ("image_url", Json.str s5),
      ("classification", Json.str s6), ("language", Json.str s7),
      ("showtimes_url", Json.str s8), ("timings", timingsToJson tm)]
      = [("slug", Json.str s1), ("identifier", Json.str s2),
      ("title", Json.str s3), ("description", Json.str s4), ("image_url", Json.str s5),
      ("classification", Json.str s6), ("language", Json.str s7),
      ("showtimes_url", Json.str s8), ("timings", timingsToJson tm)] :=
    dictFold_id_of_nodup _ (by simp)
  simp only [decodeMovie, movieToJson, hdf]
  simp [lookupA, decodeStr, decodeTimings_round tm h1 h2]

/-- C9: serializing any well-formed list of Movie records with the
exporter's JSON encoding and reading the JSON back yields the same
sequence of records — same fields, same key sets, same time lists in the
same order.  The hypothesis says each record's nested mappings have
unique keys, which is true of every dict the program builds. -/
theorem export_roundtrip (ms : List Movie) (h : ∀ m ∈ ms, MovieWF m) :
    decodeMovies (moviesToJson ms) = some ms := by
  simp only [decodeMovies, moviesToJson]
  induction ms with
  | nil => rfl
  | cons m t ih =>
    simp only [List.map_cons, optMapM]
    rw [decodeMovie_round m (h m (by simp))]
    rw [ih (fun q hq => h q (List.mem_cons_of_mem _ hq))]
    rfl

def sampleEnriched : Movie :=
  ⟨"dune", "id7", "Dune", "A movie", "img.jpg", "PG", "English", "/showtimes",
    [("2025-02-12", ⟨"Wednesday", [("Cinema X", [("Standard", ["10:30", "21:00"])])]⟩)]⟩

theorem export_roundtrip_witness :
    (∀ m ∈ [sampleEnriched], MovieWF m)
    ∧ decodeMovies (moviesToJson [sampleEnriched]) = some [sampleEnriched] :=
  ⟨by decide, export_roundtrip [sampleEnriched] (by decide)⟩

end VoxScrape

